import Mathlib

/-!
Verification development for the L2F UCT planner
(`L2Fsim/pilot/mcts/b03_uct_pilot.hpp`).

The C++ planner is embedded shallowly:

* `double` values computed by the planner become `ℚ`; the two math-library
  calls `sqrt` and `log` are abstracted as injected functions `sqrtFn`,
  `logFn` of the pilot (the planner treats them as black boxes).
* The aircraft / flight-zone collaborators are threaded explicitly: the
  transition function is an injected function that receives and returns the
  aircraft, the flight zone and the current time, exactly mirroring the C++
  signature `void (*)(aircraft &, flight_zone &, double &, const double &,
  const double &)`.
* All random draws (`rand_indice`, `rand_element`, tie breaking) consume one
  natural number from an explicit seed list; a drawn seed `k` selects index
  `k % n` among `n` choices.
* The search tree is an arena (a list of node records with parent indices),
  following the non-owning parent back-reference design; child links are
  arena indices.  This mirrors the C++ tree, where parent pointers are used
  only for backup.
* The C++ local `b03_node v` of `operator()` receives a COPY of the frontier
  node (`v = v0` and `v = v0.get_last_child()` are copy assignments), so the
  first step of `backup` updates that discarded copy while the recursive
  steps follow the parent pointer into the real tree.  The embedding keeps
  this behaviour (`backup_outer`).
* The C++ local `double reward` of `operator()` is never initialised before
  `default_policy` accumulates into it; the embedding makes that explicit by
  threading an arbitrary initial accumulator value (`uninit`) into each
  simulation.
-/

/-- Modelled from the spec: `beeler_glider_state.hpp` is not under `src/`.
State snapshot of the glider with the fields the planner and its callers
read: position, speed, attitude angles, climb rate, acceleration and time.
All fields default to `0`. -/
structure State where
  x : ℚ := 0
  y : ℚ := 0
  z : ℚ := 0
  V : ℚ := 0
  khi : ℚ := 0
  gamma : ℚ := 0
  sigma : ℚ := 0
  alpha : ℚ := 0
  beta : ℚ := 0
  zdot : ℚ := 0
  Vdot : ℚ := 0
  time : ℚ := 0
deriving DecidableEq

/-- Modelled from the spec: `beeler_glider_command.hpp` is not under `src/`.
A command is the triple of angle increments the pilot writes
(`dalpha`, `dbeta`, `dsigma`). -/
structure Command where
  dalpha : ℚ := 0
  dbeta : ℚ := 0
  dsigma : ℚ := 0
deriving DecidableEq

/-- The part of `beeler_glider` the planner touches: its state and its
command (`set_state`, `set_command`, `get_state`).  The physical parameters
of the glider are owned by the injected transition function. -/
structure Aircraft where
  s : State
  u : Command
deriving DecidableEq

/-- One draw from the seed stream: return the head seed and the tail.
An exhausted stream yields `0`. -/
def draw (rng : List ℕ) : ℕ × List ℕ :=
  match rng with
  | [] => (0, [])
  | k :: ks => (k, ks)

/-- The planner `b03_uct_pilot`, parametric in the flight-zone type `FZ`.
`ac` and `fz` are the mutable collaborator members; `transition_function`
returns the updated aircraft, flight zone and time.  `sqrtFn` and `logFn`
abstract the real-valued math-library calls used by the UCT formula. -/
structure b03_uct_pilot (FZ : Type) where
  ac : Aircraft
  fz : FZ
  transition_function : Aircraft → FZ → ℚ → ℚ → ℚ → Aircraft × FZ × ℚ
  angle_rate_magnitude : ℚ
  uct_parameter : ℚ
  time_step_width : ℚ
  sub_time_step_width : ℚ
  df : ℚ
  horizon : ℕ
  computational_budget : ℕ
  sqrtFn : ℚ → ℚ
  logFn : ℚ → ℚ

/-- `is_terminal`: a state is terminal when its altitude is below zero
(`_s.z < 0.`). -/
def is_terminal (s : State) : Bool :=
  decide (s.z < 0)

/-- `get_reward_model`: the immediate reward
`s_t.zdot + s_t.V * s_t.Vdot / 9.81`; the literal `9.81` becomes the
rational `981/100`.  The command `a_t` and resulting state `s_tp` are
parameters of the C++ signature but do not occur in the returned
expression. -/
def get_reward_model (s_t : State) (a_t : Command) (s_tp : State) : ℚ :=
  s_t.zdot + s_t.V * s_t.Vdot / (981 / 100)

/-- `get_expendable_actions`: the three discretised bank-rate adjustments
`(0,0,+m)`, `(0,0,0)`, `(0,0,-m)` where `m = angle_rate_magnitude`. -/
def get_expendable_actions {FZ : Type} (pl : b03_uct_pilot FZ) : List Command :=
  [ { dalpha := 0, dbeta := 0, dsigma := pl.angle_rate_magnitude },
    { dalpha := 0, dbeta := 0, dsigma := 0 },
    { dalpha := 0, dbeta := 0, dsigma := - pl.angle_rate_magnitude } ]

/-- `get_transition_model`: copy the queried state and command into the
aircraft member, run the injected transition function with a local copy of
the state time, and read the computed state back from the aircraft.  The
mutated aircraft and flight zone remain in the pilot (the C++ members `ac`
and `fz` are written in place); the mutated local time is discarded. -/
def get_transition_model {FZ : Type} (pl : b03_uct_pilot FZ) (s : State) (a : Command) :
    State × b03_uct_pilot FZ :=
  let ac1 : Aircraft := { pl.ac with s := s, u := a }
  let out := pl.transition_function ac1 pl.fz s.time pl.time_step_width pl.sub_time_step_width
  (out.1.s, { pl with ac := out.1, fz := out.2.1 })

/-- `out_of_range`: the recovery policy.  It zeroes `dalpha` and `dbeta`
and raises the bank rate while `sigma < 0.4`. -/
def out_of_range {FZ : Type} (pl : b03_uct_pilot FZ) (s : State) : Command :=
  { dalpha := 0, dbeta := 0,
    dsigma := if s.sigma < 2 / 5 then pl.angle_rate_magnitude else 0 }

/-- Modelled from the spec: the node class `L2Fsim/pilot/mcts/b03_node.hpp`
is not under `src/` (only an older, incompatible `b03_node` is).  Fields
follow the data model of the spec and the member accesses of
`b03_uct_pilot.hpp`: state snapshot, untried-action list, accumulated
return (`average_reward`), visit counter, depth, incoming action, a
non-owning parent back-reference and the child list.  In the arena
embedding `parent` and `children` hold arena indices. -/
structure NodeRec where
  s : State
  expendable_actions : List Command
  average_reward : ℚ
  number_of_visits : ℕ
  depth : ℕ
  incoming_action : Command
  parent : Option ℕ
  children : List ℕ
deriving DecidableEq

/-- The arena: node records addressed by index; the root lives at index 0. -/
abbrev Arena := List NodeRec

/-- An all-zero node record, used as lookup default where the C++ code
would dereference out of range. -/
def null_node : NodeRec :=
  { s := {}, expendable_actions := [], average_reward := 0,
    number_of_visits := 0, depth := 0, incoming_action := {},
    parent := none, children := [] }

/-- Lookup of a child record by arena index. -/
def childD (ns : Arena) (c : ℕ) : NodeRec :=
  (ns.get? c).getD null_node

/-- Modelled from the spec: `is_fully_expanded` of the absent node class.
A node is fully expanded iff its untried-action list is empty (equivalently,
iff it has as many children as actions; the algorithm keeps the two in
sync). -/
def is_fully_expanded (v : NodeRec) : Bool :=
  v.expendable_actions.isEmpty

/-- Modelled from the spec: the node constructor of the absent class, as
invoked by `operator()`: `b03_node v0(s0, get_expendable_actions(), 0., 1, 0)`
builds the root from the current state with a freshly generated action set,
accumulated return `0.`, visit count `1` and depth `0`. -/
def mk_root {FZ : Type} (pl : b03_uct_pilot FZ) (s0 : State) : NodeRec :=
  { s := s0, expendable_actions := get_expendable_actions pl,
    average_reward := 0, number_of_visits := 1, depth := 0,
    incoming_action := {}, parent := none, children := [] }

/-- Modelled from the spec: the placeholder node
`b03_node v(get_expendable_actions(), 0., 0, 0)` of `operator()`, used only
as the lookup default for the frontier copy. -/
def placeholder_node {FZ : Type} (pl : b03_uct_pilot FZ) : NodeRec :=
  { s := {}, expendable_actions := get_expendable_actions pl,
    average_reward := 0, number_of_visits := 0, depth := 0,
    incoming_action := {}, parent := none, children := [] }

/-- Greatest element of `m :: l` (left fold of `max`), used to model the
maximum-score subset computed by `sort_indices`. -/
def list_max_q : List ℚ → ℚ → ℚ
  | [], m => m
  | x :: xs, m => list_max_q xs (max m x)

/-- Modelled from the spec: `sort_indices` of the absent `utils.hpp`
computes the subset of indices attaining the maximum score, from which the
tie break samples uniformly. -/
def argmax_indices (l : List ℚ) : List ℕ :=
  match l with
  | [] => []
  | x :: xs =>
    (List.range (xs.length + 1)).filter
      (fun i => decide ((x :: xs).getD i 0 = list_max_q xs x))

/-- `get_uct_score`: the UCT score of a child node,
`average_reward + 2 * uct_parameter * sqrt(2 * log(nparent) / nchild)`,
where `nparent` is read through the parent back-reference of the child
(`v.parent->number_of_visits`). -/
def get_uct_score {FZ : Type} (pl : b03_uct_pilot FZ) (ns : Arena) (v : NodeRec) : ℚ :=
  let nchild : ℚ := (v.number_of_visits : ℚ)
  let nparent : ℚ := (((v.parent.bind (fun p => ns.get? p)).getD null_node).number_of_visits : ℚ)
  v.average_reward + 2 * pl.uct_parameter * pl.sqrtFn (2 * pl.logFn nparent / nchild)

/-- The UCT scores of the children of `v`, in child order
(`get_best_uct_child` builds this vector before selecting). -/
def child_scores {FZ : Type} (pl : b03_uct_pilot FZ) (ns : Arena) (v : NodeRec) : List ℚ :=
  v.children.map (fun c => get_uct_score pl ns (childD ns c))

/-- `create_new_child`: draw one untried action uniformly at random, remove
it from the untried list, run the transition model from the node state,
and append a fresh child record (fresh action set, return `0`, visit count
`1`, depth `parent + 1`, the drawn incoming action and a parent
back-reference).  Returns the pilot after the transition, the new arena and
the remaining seeds; the new child sits at index `ns.length`. -/
def create_new_child {FZ : Type} (pl : b03_uct_pilot FZ) (ns : Arena) (i : ℕ)
    (rng : List ℕ) : b03_uct_pilot FZ × Arena × List ℕ :=
  match ns.get? i with
  | none => (pl, ns, rng)
  | some v =>
    let k := (draw rng).1
    let rng2 := (draw rng).2
    let idx := k % v.expendable_actions.length
    let a := v.expendable_actions.getD idx {}
    let ea2 := v.expendable_actions.eraseIdx idx
    let tm := get_transition_model pl v.s a
    let child : NodeRec :=
      { s := tm.1, expendable_actions := get_expendable_actions tm.2,
        average_reward := 0, number_of_visits := 1, depth := v.depth + 1,
        incoming_action := a, parent := some i, children := [] }
    let v2 : NodeRec :=
      { v with expendable_actions := ea2, children := v.children ++ [ns.length] }
    (tm.2, ns.set i v2 ++ [child], rng2)

/-- `tree_policy`, fuelled: descend from node `i`.  A terminal node is the
frontier; a fully expanded node delegates to the best UCT child (uniform
tie break among the maximal subset); otherwise one new child is created and
returned as the frontier.  Out-of-fuel and missing-index cases return the
current node; neither is reachable from a well-formed arena with the fuel
used by the wrapper. -/
def tree_policyF {FZ : Type} : ℕ → b03_uct_pilot FZ → Arena → ℕ → List ℕ →
    b03_uct_pilot FZ × Arena × ℕ × List ℕ
  | 0, pl, ns, i, rng => (pl, ns, i, rng)
  | fuel + 1, pl, ns, i, rng =>
    match ns.get? i with
    | none => (pl, ns, i, rng)
    | some v =>
      if is_terminal v.s then (pl, ns, i, rng)
      else if is_fully_expanded v then
        match argmax_indices (child_scores pl ns v) with
        | [] => (pl, ns, i, rng)
        | m :: ms =>
          let k := (draw rng).1
          let rng2 := (draw rng).2
          let j := (m :: ms).getD (k % (m :: ms).length) 0
          tree_policyF fuel pl ns (v.children.getD j 0) rng2
      else
        let r := create_new_child pl ns i rng
        (r.1, r.2.1, ns.length, r.2.2)

/-- `tree_policy` from the root, with fuel covering any well-formed arena
(descents strictly increase the arena index). -/
def tree_policy {FZ : Type} (pl : b03_uct_pilot FZ) (ns : Arena) (rng : List ℕ) :
    b03_uct_pilot FZ × Arena × ℕ × List ℕ :=
  tree_policyF (ns.length + 1) pl ns 0 rng

/-- One rollout step loop of `default_policy`: at each of the remaining
steps draw an action uniformly at random, run the transition model, stop
(without adding the step reward) if the resulting state is terminal, else
accumulate `df ^ t * reward` and continue. -/
def default_policy_loop {FZ : Type} (actions : List Command) :
    ℕ → ℕ → b03_uct_pilot FZ → State → ℚ → List ℕ → ℚ × b03_uct_pilot FZ × List ℕ
  | _, 0, pl, _, r, rng => (r, pl, rng)
  | t, rem + 1, pl, s_t, r, rng =>
    let k := (draw rng).1
    let rng2 := (draw rng).2
    let a_t := actions.getD (k % actions.length) {}
    let tm := get_transition_model pl s_t a_t
    if is_terminal tm.1 then (r, tm.2, rng2)
    else default_policy_loop actions (t + 1) rem tm.2 tm.1
      (r + pl.df ^ t * get_reward_model s_t a_t tm.1) rng2

/-- `default_policy`: random rollout from state `s` up to `horizon` steps,
accumulating into `r0`.  `r0` models the value already stored in the
`double reward` local of `operator()`, which the C++ code never
initialises. -/
def default_policy {FZ : Type} (pl : b03_uct_pilot FZ) (s : State) (r0 : ℚ)
    (rng : List ℕ) : ℚ × b03_uct_pilot FZ × List ℕ :=
  default_policy_loop (get_expendable_actions pl) 0 pl.horizon pl s r0 rng

/-- The node update performed at each step of `backup`: one more visit and
`df ^ depth * reward` added to the accumulated return. -/
def updVisit (df r : ℚ) (w : NodeRec) : NodeRec :=
  { w with number_of_visits := w.number_of_visits + 1,
           average_reward := w.average_reward + df ^ w.depth * r }

/-- The recursive part of `backup` acting on real arena nodes: update node
`i`, and while its depth is positive continue into its parent.  Fuel bounds
the walk; the wrapper supplies enough for any well-formed arena. -/
def backupF (df r : ℚ) : ℕ → Arena → ℕ → Arena
  | 0, ns, _ => ns
  | fuel + 1, ns, i =>
    match ns.get? i with
    | none => ns
    | some v =>
      let ns2 := ns.set i (updVisit df r v)
      if v.depth = 0 then ns2
      else
        match v.parent with
        | some p => backupF df r fuel ns2 p
        | none => ns2

/-- The `backup(v, reward)` call of `operator()`.  Its argument `v` is the
local COPY of the frontier node (the `v = v0` and `v = v0.get_last_child()`
assignments of `tree_policy` copy-assign into the local), so the first
update of `backup` lands on that discarded copy; only the recursion through
the parent back-reference reaches, and updates, real tree nodes. -/
def backup_outer (df r : ℚ) (ns : Arena) (v : NodeRec) : Arena :=
  if v.depth = 0 then ns
  else
    match v.parent with
    | some p => backupF df r (ns.length + 1) ns p
    | none => ns

/-- `get_best_action`: among the children of node `i`, select one with
maximal accumulated return (uniform tie break) and return its incoming
action.  A node without children has no selectable child — the C++ code
indexes an empty vector there — modelled as `none`. -/
def get_best_action (ns : Arena) (i : ℕ) (rng : List ℕ) : Option Command × List ℕ :=
  match ns.get? i with
  | none => (none, rng)
  | some v =>
    let scores := v.children.map (fun c => (childD ns c).average_reward)
    match argmax_indices scores with
    | [] => (none, rng)
    | m :: ms =>
      let k := (draw rng).1
      let rng2 := (draw rng).2
      let j := (m :: ms).getD (k % (m :: ms).length) 0
      (some (childD ns (v.children.getD j 0)).incoming_action, rng2)

/-- One simulation of `operator()`: tree policy to the frontier, rollout
from the frontier state accumulating into the arbitrary initial value `r0`
of the uninitialised `double reward`, then backup of the rollout value from
the frontier copy. -/
def simulate {FZ : Type} (pl : b03_uct_pilot FZ) (ns : Arena) (rng : List ℕ)
    (r0 : ℚ) : b03_uct_pilot FZ × Arena × List ℕ :=
  let tp := tree_policy pl ns rng
  let vcopy := (tp.2.1.get? tp.2.2.1).getD (placeholder_node pl)
  let dp := default_policy tp.1 vcopy.s r0 tp.2.2.2
  (dp.2.1, backup_outer dp.2.1.df dp.1 tp.2.1 vcopy, dp.2.2)

/-- The budgeted simulation loop of `operator()`: run `b` simulations,
feeding simulation `i` the arbitrary value `uninit i` held by its
uninitialised reward accumulator. -/
def run_sims {FZ : Type} (uninit : ℕ → ℚ) : ℕ → ℕ →
    b03_uct_pilot FZ × Arena × List ℕ → b03_uct_pilot FZ × Arena × List ℕ
  | _, 0, st => st
  | i, b + 1, st => run_sims uninit (i + 1) b (simulate st.1 st.2.1 st.2.2 (uninit i))

/-- `operator()` (the decision epoch, `select_action` of the spec): build
the root from the current state, run the budgeted simulations, then extract
the best root action.  Returns the selected action (if any) and the pilot
with its mutated collaborator members. -/
def select_action {FZ : Type} (pl : b03_uct_pilot FZ) (s0 : State) (rng : List ℕ)
    (uninit : ℕ → ℚ) : Option Command × b03_uct_pilot FZ :=
  let st := run_sims uninit 0 pl.computational_budget (pl, [mk_root pl s0], rng)
  ((get_best_action st.2.1 0 st.2.2).1, st.1)

/-! ### Basic facts about the maximum-index selection -/

theorem list_max_q_ge : ∀ (xs : List ℚ) (m : ℚ), m ≤ list_max_q xs m := by
  intro xs
  induction xs with
  | nil => intro m; exact le_refl m
  | cons x xs ih =>
    intro m
    exact le_trans (le_max_left m x) (ih (max m x))

theorem getD_mem_of_lt {A : Type} : ∀ (l : List A) (i : ℕ) (d : A),
    i < l.length → l.getD i d ∈ l
  | a :: l, 0, _, _ => List.mem_cons_self a l
  | a :: l, i + 1, d, h =>
    List.mem_cons_of_mem a (getD_mem_of_lt l i d (by simpa using h))

theorem list_max_q_ge_mem : ∀ (xs : List ℚ) (m a : ℚ), a ∈ xs → a ≤ list_max_q xs m := by
  intro xs
  induction xs with
  | nil => intro m a h; cases h
  | cons x xs ih =>
    intro m a h
    rcases List.mem_cons.mp h with h1 | h2
    · subst h1
      exact le_trans (le_max_right m a) (list_max_q_ge xs (max m a))
    · exact ih (max m x) a h2

theorem list_max_q_attained : ∀ (xs : List ℚ) (m : ℚ),
    list_max_q xs m = m ∨ list_max_q xs m ∈ xs := by
  intro xs
  induction xs with
  | nil => intro m; exact Or.inl rfl
  | cons x xs ih =>
    intro m
    rcases ih (max m x) with h | h
    · rcases max_cases m x with ⟨h1, _⟩ | ⟨h1, _⟩
      · exact Or.inl (by rw [list_max_q, h, h1])
      · exact Or.inr (by rw [list_max_q, h, h1]; exact List.mem_cons_self x xs)
    · exact Or.inr (List.mem_cons_of_mem x h)

theorem argmax_indices_lt {l : List ℚ} {i : ℕ} (h : i ∈ argmax_indices l) :
    i < l.length := by
  cases l with
  | nil => cases h
  | cons x xs =>
    have h2 := List.mem_filter.mp h
    simpa using List.mem_range.mp h2.1

theorem argmax_indices_attains {l : List ℚ} {i : ℕ} (h : i ∈ argmax_indices l) :
    ∀ j, j < l.length → l.getD j 0 ≤ l.getD i 0 := by
  cases l with
  | nil => cases h
  | cons x xs =>
    have h2 := List.mem_filter.mp h
    have hmax : (x :: xs).getD i 0 = list_max_q xs x := of_decide_eq_true h2.2
    intro j hj
    rw [hmax]
    have hjmem : (x :: xs).getD j 0 ∈ x :: xs := getD_mem_of_lt _ j 0 hj
    rcases List.mem_cons.mp hjmem with h1 | h2
    · rw [h1]; exact list_max_q_ge xs x
    · exact list_max_q_ge_mem xs x _ h2

theorem argmax_indices_ne_nil {l : List ℚ} (h : l ≠ []) : argmax_indices l ≠ [] := by
  cases l with
  | nil => exact absurd rfl h
  | cons x xs =>
    rcases list_max_q_attained xs x with hm | hm
    · have : (0 : ℕ) ∈ argmax_indices (x :: xs) := by
        apply List.mem_filter.mpr
        refine ⟨List.mem_range.mpr (Nat.succ_pos _), ?_⟩
        exact decide_eq_true (by simpa using hm.symm)
      intro hnil
      rw [hnil] at this
      cases this
    · rcases List.mem_iff_get?.mp hm with ⟨j, hj⟩
      have hjlt : j < xs.length := by
        by_contra hge
        rw [List.get?_eq_none.mpr (Nat.le_of_not_lt hge)] at hj
        cases hj
      have : j + 1 ∈ argmax_indices (x :: xs) := by
        apply List.mem_filter.mpr
        refine ⟨List.mem_range.mpr (by omega), ?_⟩
        apply decide_eq_true
        have hgd : xs.getD j 0 = list_max_q xs x := by
          show (xs.get? j).getD 0 = list_max_q xs x
          rw [hj]; rfl
        simpa [List.getD_cons_succ] using hgd
      intro hnil
      rw [hnil] at this
      cases this

theorem mem_of_getD_sel {l : List ℕ} {k : ℕ} (h : l ≠ []) : l.getD (k % l.length) 0 ∈ l := by
  have hlen : 0 < l.length := List.length_pos.mpr h
  exact getD_mem_of_lt l _ 0 (Nat.mod_lt _ hlen)

/-! ### The transition model only rewrites the collaborator members -/

theorem gtm_df {FZ : Type} (pl : b03_uct_pilot FZ) (s : State) (a : Command) :
    (get_transition_model pl s a).2.df = pl.df := rfl

theorem gtm_horizon {FZ : Type} (pl : b03_uct_pilot FZ) (s : State) (a : Command) :
    (get_transition_model pl s a).2.horizon = pl.horizon := rfl

theorem gtm_actions {FZ : Type} (pl : b03_uct_pilot FZ) (s : State) (a : Command) :
    get_expendable_actions (get_transition_model pl s a).2 = get_expendable_actions pl := rfl

/-! ### Well-formed arenas -/

/-- Structural well-formedness of a search arena: the root (index 0) has no
parent and depth 0; every other node has a parent at a smaller index and at
one less depth; children sit at larger indices inside the arena, point back
to their parent and sit one level deeper. -/
def wfArena (ns : Arena) : Prop :=
  (∀ v, ns.get? 0 = some v → v.parent = none ∧ v.depth = 0) ∧
  (∀ i v, ns.get? i = some v → 0 < i →
    ∃ p w, v.parent = some p ∧ ns.get? p = some w ∧ p < i ∧ w.depth + 1 = v.depth) ∧
  (∀ i v, ns.get? i = some v → ∀ c, c ∈ v.children →
    i < c ∧ ∃ cw, ns.get? c = some cw ∧ cw.parent = some i ∧ cw.depth = v.depth + 1)

/-- The running invariant of the planner: well-formed, non-empty, every node
has its three-way action set split between untried actions and children, and
every node carries at least one visit (nodes are created with one). -/
def invArena (ns : Arena) : Prop :=
  wfArena ns ∧ 0 < ns.length ∧
  ∀ i v, ns.get? i = some v →
    v.expendable_actions.length + v.children.length = 3 ∧ 1 ≤ v.number_of_visits

theorem depth_le_of_wf {ns : Arena} (hwf : wfArena ns) :
    ∀ i v, ns.get? i = some v → v.depth ≤ i := by
  intro i
  induction i using Nat.strong_induction_on with
  | _ i ih =>
    intro v hv
    rcases Nat.eq_zero_or_pos i with hz | hpos
    · subst hz
      rw [(hwf.1 v hv).2]
    · rcases hwf.2.1 i v hv hpos with ⟨p, w, _, hw, hpi, hd⟩
      have := ih p hpi w hw
      omega

theorem depth_zero_index_zero {ns : Arena} (hwf : wfArena ns) :
    ∀ i v, ns.get? i = some v → v.depth = 0 → i = 0 := by
  intro i v hv hd
  by_contra hne
  rcases hwf.2.1 i v hv (Nat.pos_of_ne_zero hne) with ⟨p, w, _, _, _, hdp⟩
  omega

theorem get?_lt_length {A : Type} {l : List A} {i : ℕ} {a : A}
    (h : l.get? i = some a) : i < l.length := by
  by_contra hge
  rw [List.get?_eq_none.mpr (Nat.le_of_not_lt hge)] at h
  cases h

/-! ### How one tree-policy descent rewrites the arena -/

/-- The statistics and identity fields of every node present before a
tree-policy descent survive it unchanged: the descent only rewrites the
untried-action list and child list of the expanded node and appends the new
child.  Stated for `tree_policyF` at any fuel and start index. -/
theorem tree_policyF_frame {FZ : Type} :
    ∀ (fuel : ℕ) (pl : b03_uct_pilot FZ) (ns : Arena) (i : ℕ) (rng : List ℕ)
      (j : ℕ) (w : NodeRec), ns.get? j = some w →
      ∃ w2, (tree_policyF fuel pl ns i rng).2.1.get? j = some w2 ∧
        w2.s = w.s ∧ w2.average_reward = w.average_reward ∧
        w2.number_of_visits = w.number_of_visits ∧ w2.depth = w.depth ∧
        w2.parent = w.parent ∧
        (w2 = w ∨ (w2.expendable_actions.length + 1 = w.expendable_actions.length ∧
          w2.children = w.children ++ [ns.length])) := by
  intro fuel
  induction fuel with
  | zero =>
    intro pl ns i rng j w hw
    exact ⟨w, hw, rfl, rfl, rfl, rfl, rfl, Or.inl rfl⟩
  | succ fuel ih =>
    intro pl ns i rng j w hw
    show ∃ w2, (tree_policyF (fuel + 1) pl ns i rng).2.1.get? j = some w2 ∧ _
    rw [tree_policyF]
    cases hvi : ns.get? i with
    | none => exact ⟨w, hw, rfl, rfl, rfl, rfl, rfl, Or.inl rfl⟩
    | some v =>
      by_cases hterm : is_terminal v.s
      · simp only [hterm, if_true]
        exact ⟨w, hw, rfl, rfl, rfl, rfl, rfl, Or.inl rfl⟩
      · simp only [hterm, if_false, Bool.false_eq_true]
        by_cases hfull : is_fully_expanded v
        · simp only [hfull, if_true]
          cases hmi : argmax_indices (child_scores pl ns v) with
          | nil => exact ⟨w, hw, rfl, rfl, rfl, rfl, rfl, Or.inl rfl⟩
          | cons m ms => exact ih pl ns _ _ j w hw
        · simp only [hfull, if_false, Bool.false_eq_true, create_new_child, hvi]
          by_cases hij : i = j
          · subst hij
            have hv : v = w := by rw [hvi] at hw; exact Option.some.inj hw
            subst hv
            have hlt : i < ns.length := get?_lt_length hvi
            refine ⟨{ v with
                expendable_actions :=
                  v.expendable_actions.eraseIdx ((draw rng).1 % v.expendable_actions.length),
                children := v.children ++ [ns.length] },
              ?_, rfl, rfl, rfl, rfl, rfl, Or.inr ⟨?_, rfl⟩⟩
            · rw [List.get?_append (by simpa using hlt),
                List.get?_set_eq_of_lt _ hlt]
            · have hne : v.expendable_actions ≠ [] := by
                intro hnil
                rw [is_fully_expanded, hnil] at hfull
                exact hfull rfl
              have hpos : 0 < v.expendable_actions.length := List.length_pos.mpr hne
              simp only [List.length_eraseIdx]
              rw [if_pos (Nat.mod_lt _ hpos)]
              omega
          · have hjlt : j < ns.length := get?_lt_length hw
            refine ⟨w, ?_, rfl, rfl, rfl, rfl, rfl, Or.inl rfl⟩
            rw [List.get?_append (by simpa using hjlt),
              List.get?_set_ne _ _ (fun h => hij h), hw]

/-- A tree-policy descent grows the arena by at most one node: one
simulation creates at most one new node. -/
theorem tree_policyF_length {FZ : Type} :
    ∀ (fuel : ℕ) (pl : b03_uct_pilot FZ) (ns : Arena) (i : ℕ) (rng : List ℕ),
      ns.length ≤ (tree_policyF fuel pl ns i rng).2.1.length ∧
      (tree_policyF fuel pl ns i rng).2.1.length ≤ ns.length + 1 := by
  intro fuel
  induction fuel with
  | zero => intro pl ns i rng; exact ⟨le_refl _, Nat.le_succ _⟩
  | succ fuel ih =>
    intro pl ns i rng
    rw [tree_policyF]
    cases hvi : ns.get? i with
    | none => exact ⟨le_refl _, Nat.le_succ _⟩
    | some v =>
      by_cases hterm : is_terminal v.s
      · simp only [hterm, if_true]
        exact ⟨le_refl _, Nat.le_succ _⟩
      · simp only [hterm, if_false, Bool.false_eq_true]
        by_cases hfull : is_fully_expanded v
        · simp only [hfull, if_true]
          cases hmi : argmax_indices (child_scores pl ns v) with
          | nil => exact ⟨le_refl _, Nat.le_succ _⟩
          | cons m ms => exact ih pl ns _ _
        · simp only [hfull, if_false, Bool.false_eq_true, create_new_child, hvi]
          constructor
          · simp [List.length_append]
          · simp [List.length_append]

theorem get?_expand {ns : Arena} {i : ℕ} (v2 child : NodeRec) (hlt : i < ns.length) (j : ℕ) :
    (ns.set i v2 ++ [child]).get? j =
      if j = ns.length then some child
      else if j = i then some v2
      else ns.get? j := by
  by_cases hj : j = ns.length
  · subst hj
    rw [if_pos rfl]
    have hl : (ns.set i v2).length = ns.length := List.length_set ns i v2
    calc (ns.set i v2 ++ [child]).get? ns.length
        = (ns.set i v2 ++ [child]).get? (ns.set i v2).length := by rw [hl]
      _ = some child := List.get?_concat_length _ _
  · rw [if_neg hj]
    by_cases hji : j = i
    · subst hji
      rw [if_pos rfl, List.get?_append (by simpa using hlt), List.get?_set_eq_of_lt _ hlt]
    · rw [if_neg hji]
      by_cases hjlen : j < ns.length
      · rw [List.get?_append (by simpa using hjlen), List.get?_set_ne _ _ (fun h => hji h.symm)]
      · have h1 : ns.length ≤ j := Nat.le_of_not_lt hjlen
        have h2 : ns.length + 1 ≤ j := by omega
        rw [List.get?_eq_none.mpr (by simpa using h2), List.get?_eq_none.mpr h1]

theorem length_expand {ns : Arena} {i : ℕ} (v2 child : NodeRec) :
    (ns.set i v2 ++ [child]).length = ns.length + 1 := by
  simp

theorem get_expendable_actions_length {FZ : Type} (pl : b03_uct_pilot FZ) :
    (get_expendable_actions pl).length = 3 := rfl

/-- Expanding one node preserves the planner invariant: the expanded node
keeps its identity fields, trades one untried action for one child link, and
the appended child is a fresh singleton subtree one level deeper. -/
theorem inv_preserve_expand {ns : Arena} {i : ℕ} {v : NodeRec} (hinv : invArena ns)
    (hvi : ns.get? i = some v) (v2 c : NodeRec)
    (hv2p : v2.parent = v.parent) (hv2d : v2.depth = v.depth)
    (hv2c : v2.children = v.children ++ [ns.length])
    (hv2e : v2.expendable_actions.length + 1 = v.expendable_actions.length)
    (hv2n : v2.number_of_visits = v.number_of_visits)
    (hcp : c.parent = some i) (hcd : c.depth = v.depth + 1)
    (hcc : c.children = []) (hce : c.expendable_actions.length = 3)
    (hcn : c.number_of_visits = 1) :
    invArena (ns.set i v2 ++ [c]) := by
  obtain ⟨hwf, hlen, hcnt⟩ := hinv
  have hilt : i < ns.length := get?_lt_length hvi
  have hget := get?_expand v2 c hilt
  refine ⟨⟨?_, ?_, ?_⟩, ?_, ?_⟩
  · -- root unchanged in parent and depth
    intro w hw
    rw [hget 0] at hw
    have h0len : (0 : ℕ) ≠ ns.length := by omega
    rw [if_neg h0len] at hw
    by_cases h0i : (0 : ℕ) = i
    · rw [if_pos h0i] at hw
      have hv2w : v2 = w := Option.some.inj hw
      subst hv2w
      rw [hv2p, hv2d]
      rw [← h0i] at hvi
      exact hwf.1 v hvi
    · rw [if_neg h0i] at hw
      exact hwf.1 w hw
  · -- every non-root node has a parent one level up at a smaller index
    intro j w hw hj
    rw [hget j] at hw
    by_cases hjlen : j = ns.length
    · rw [if_pos hjlen] at hw
      have hcw : c = w := Option.some.inj hw
      subst hcw
      refine ⟨i, v2, hcp, ?_, by omega, by rw [hv2d, hcd]⟩
      rw [hget i, if_neg (by omega), if_pos rfl]
    · rw [if_neg hjlen] at hw
      by_cases hji : j = i
      · rw [if_pos hji] at hw
        have hv2w : v2 = w := Option.some.inj hw
        subst hv2w
        subst hji
        rcases hwf.2.1 j v hvi hj with ⟨p, pw, hp, hpw, hpj, hpd⟩
        refine ⟨p, pw, by rw [hv2p, hp], ?_, hpj, by rw [hv2d]; exact hpd⟩
        rw [hget p, if_neg (by have := get?_lt_length hpw; omega), if_neg (by omega), hpw]
      · rw [if_neg hji] at hw
        rcases hwf.2.1 j w hw hj with ⟨p, pw, hp, hpw, hpj, hpd⟩
        by_cases hpi : p = i
        · subst hpi
          have hvpw : v = pw := by rw [hvi] at hpw; exact Option.some.inj hpw
          subst hvpw
          refine ⟨p, v2, hp, ?_, hpj, by rw [hv2d]; exact hpd⟩
          rw [hget p, if_neg (by omega), if_pos rfl]
        · refine ⟨p, pw, hp, ?_, hpj, hpd⟩
          rw [hget p, if_neg (by have := get?_lt_length hpw; omega), if_neg hpi, hpw]
  · -- children links
    intro j w hw d hd
    rw [hget j] at hw
    by_cases hjlen : j = ns.length
    · rw [if_pos hjlen] at hw
      have hcw : c = w := Option.some.inj hw
      subst hcw
      rw [hcc] at hd
      cases hd
    · rw [if_neg hjlen] at hw
      by_cases hji : j = i
      · rw [if_pos hji] at hw
        have hv2w : v2 = w := Option.some.inj hw
        subst hv2w
        subst hji
        rw [hv2c] at hd
        rcases List.mem_append.mp hd with hold | hnew
        · rcases hwf.2.2 j v hvi d hold with ⟨hjd, cw, hcw2, hcwp, hcwd⟩
          refine ⟨hjd, cw, ?_, hcwp, by rw [hcwd, hv2d]⟩
          rw [hget d, if_neg (by have := get?_lt_length hcw2; omega),
            if_neg (by omega), hcw2]
        · have hdlen : d = ns.length := by simpa using hnew
          subst hdlen
          refine ⟨hilt, c, ?_, hcp, by rw [hcd, hv2d]⟩
          rw [hget ns.length, if_pos rfl]
      · rw [if_neg hji] at hw
        rcases hwf.2.2 j w hw d hd with ⟨hjd, cw, hcw2, hcwp, hcwd⟩
        by_cases hdi : d = i
        · subst hdi
          have hvcw : v = cw := by rw [hvi] at hcw2; exact Option.some.inj hcw2
          subst hvcw
          refine ⟨hjd, v2, ?_, by rw [hv2p]; exact hcwp, by rw [hv2d]; exact hcwd⟩
          rw [hget d, if_neg (by omega), if_pos rfl]
        · refine ⟨hjd, cw, ?_, hcwp, hcwd⟩
          rw [hget d, if_neg (by have := get?_lt_length hcw2; omega), if_neg hdi, hcw2]
  · rw [length_expand]; omega
  · -- action-count split and positive visits
    intro j w hw
    rw [hget j] at hw
    by_cases hjlen : j = ns.length
    · rw [if_pos hjlen] at hw
      have hcw : c = w := Option.some.inj hw
      subst hcw
      rw [hcc, hce, hcn]
      exact ⟨rfl, le_refl 1⟩
    · rw [if_neg hjlen] at hw
      by_cases hji : j = i
      · rw [if_pos hji] at hw
        have hv2w : v2 = w := Option.some.inj hw
        subst hv2w
        rcases hcnt i v hvi with ⟨hsum, hvis⟩
        constructor
        · rw [hv2c]
          simp only [List.length_append, List.length_cons, List.length_nil]
          omega
        · rw [hv2n]; exact hvis
      · rw [if_neg hji] at hw
        exact hcnt j w hw

theorem child_scores_length {FZ : Type} (pl : b03_uct_pilot FZ) (ns : Arena) (v : NodeRec) :
    (child_scores pl ns v).length = v.children.length := by
  simp [child_scores]

/-- One tree-policy descent from any node of a well-formed arena preserves
the planner invariant and lands on a frontier node that exists in the
resulting arena; from a non-terminal node the frontier is strictly deeper
(in particular, descents from a non-terminal root never return the root). -/
theorem tree_policyF_spec {FZ : Type} :
    ∀ (fuel : ℕ) (pl : b03_uct_pilot FZ) (ns : Arena) (i : ℕ) (rng : List ℕ) (v : NodeRec),
      invArena ns → ns.get? i = some v →
      invArena (tree_policyF fuel pl ns i rng).2.1 ∧
      ∃ fv, (tree_policyF fuel pl ns i rng).2.1.get? (tree_policyF fuel pl ns i rng).2.2.1
          = some fv ∧ v.depth ≤ fv.depth ∧
        (fuel ≠ 0 → is_terminal v.s = false → v.depth < fv.depth) := by
  intro fuel
  induction fuel with
  | zero =>
    intro pl ns i rng v hinv hvi
    exact ⟨hinv, v, hvi, le_refl _, fun h _ => absurd rfl h⟩
  | succ fuel ih =>
    intro pl ns i rng v hinv hvi
    simp only [tree_policyF, hvi]
    by_cases hterm : is_terminal v.s
    · simp only [hterm, if_true]
      refine ⟨hinv, v, hvi, le_refl _, fun _ h2 => ?_⟩
      simp [hterm] at h2
    · simp only [hterm, if_false, Bool.false_eq_true]
      by_cases hfull : is_fully_expanded v
      · simp only [hfull, if_true]
        have hch3 : v.children.length = 3 := by
          rcases hinv.2.2 i v hvi with ⟨hsum, _⟩
          have : v.expendable_actions.length = 0 := by
            rw [is_fully_expanded] at hfull
            exact List.isEmpty_iff_length_eq_zero.mp (by simpa using hfull)
          omega
        have hcsne : child_scores pl ns v ≠ [] := by
          intro hnil
          have := child_scores_length pl ns v
          rw [hnil] at this
          simp at this
          omega
        cases hmi : argmax_indices (child_scores pl ns v) with
        | nil => exact absurd hmi (argmax_indices_ne_nil hcsne)
        | cons m ms =>
          have hjmem : (m :: ms).getD ((draw rng).1 % (m :: ms).length) 0
              ∈ argmax_indices (child_scores pl ns v) := by
            rw [hmi]
            exact mem_of_getD_sel (List.cons_ne_nil m ms)
          have hjlt : (m :: ms).getD ((draw rng).1 % (m :: ms).length) 0
              < v.children.length := by
            have := argmax_indices_lt hjmem
            rw [child_scores_length] at this
            exact this
          have hcimem : v.children.getD ((m :: ms).getD ((draw rng).1 % (m :: ms).length) 0) 0
              ∈ v.children := getD_mem_of_lt _ _ 0 hjlt
          rcases hinv.1.2.2 i v hvi _ hcimem with ⟨hic, cw, hcw, hcwp, hcwd⟩
          rcases ih pl ns _ ((draw rng).2) cw hinv hcw with ⟨hinv2, fv, hfv, hle, _⟩
          refine ⟨hinv2, fv, hfv, ?_, fun _ _ => ?_⟩
          · omega
          · omega
      · simp only [hfull, if_false, Bool.false_eq_true, create_new_child, hvi]
        have hne : v.expendable_actions ≠ [] := by
          intro hnil
          rw [is_fully_expanded, hnil] at hfull
          exact hfull rfl
        have hpos : 0 < v.expendable_actions.length := List.length_pos.mpr hne
        have hilt : i < ns.length := get?_lt_length hvi
        have hinv2 := inv_preserve_expand hinv hvi
          { v with
            expendable_actions :=
              v.expendable_actions.eraseIdx ((draw rng).1 % v.expendable_actions.length),
            children := v.children ++ [ns.length] }
          { s := (get_transition_model pl v.s
              (v.expendable_actions.getD ((draw rng).1 % v.expendable_actions.length) {})).1,
            expendable_actions := get_expendable_actions (get_transition_model pl v.s
              (v.expendable_actions.getD ((draw rng).1 % v.expendable_actions.length) {})).2,
            average_reward := 0, number_of_visits := 1, depth := v.depth + 1,
            incoming_action :=
              v.expendable_actions.getD ((draw rng).1 % v.expendable_actions.length) {},
            parent := some i, children := [] }
          rfl rfl rfl
          (by simp only [List.length_eraseIdx]
              rw [if_pos (Nat.mod_lt _ hpos)]
              omega)
          rfl rfl rfl rfl (get_expendable_actions_length _) rfl
        refine ⟨hinv2,
          ⟨{ s := (get_transition_model pl v.s
                (v.expendable_actions.getD ((draw rng).1 % v.expendable_actions.length) {})).1,
             expendable_actions := get_expendable_actions (get_transition_model pl v.s
                (v.expendable_actions.getD ((draw rng).1 % v.expendable_actions.length) {})).2,
             average_reward := 0, number_of_visits := 1, depth := v.depth + 1,
             incoming_action :=
               v.expendable_actions.getD ((draw rng).1 % v.expendable_actions.length) {},
             parent := some i, children := [] }, ?_, Nat.le_succ _,
           fun _ _ => Nat.lt_succ_self _⟩⟩
        rw [get?_expand _ _ hilt, if_pos rfl]

/-! ### Backup: the walk along parent back-references -/

/-- Well-formedness only reads the parent, depth and child fields, so any
pointwise rewrite preserving them preserves well-formedness. -/
theorem wf_of_pointwise {ns ns2 : Arena} (hwf : wfArena ns)
    (hpt : ∀ j, (∃ u u2, ns.get? j = some u ∧ ns2.get? j = some u2 ∧
        u2.parent = u.parent ∧ u2.depth = u.depth ∧ u2.children = u.children)
      ∨ (ns.get? j = none ∧ ns2.get? j = none)) :
    wfArena ns2 := by
  refine ⟨?_, ?_, ?_⟩
  · intro w2 hw2
    rcases hpt 0 with ⟨u, u2, hu, hu2, hp, hd, _⟩ | ⟨_, hnone⟩
    · rw [hw2] at hu2
      have : u2 = w2 := Option.some.inj hu2.symm
      subst this
      rw [hp, hd]
      exact hwf.1 u hu
    · rw [hw2] at hnone
      cases hnone
  · intro j w2 hw2 hj
    rcases hpt j with ⟨u, u2, hu, hu2, hp, hd, _⟩ | ⟨_, hnone⟩
    · rw [hw2] at hu2
      have : u2 = w2 := Option.some.inj hu2.symm
      subst this
      rcases hwf.2.1 j u hu hj with ⟨p, pw, hpar, hpw, hpj, hpd⟩
      rcases hpt p with ⟨x, x2, hx, hx2, hxp, hxd, _⟩ | ⟨hxnone, _⟩
      · rw [hpw] at hx
        have : x = pw := Option.some.inj hx.symm
        subst this
        exact ⟨p, x2, by rw [hp]; exact hpar, hx2, hpj, by rw [hxd, hd]; exact hpd⟩
      · rw [hpw] at hxnone
        cases hxnone
    · rw [hw2] at hnone
      cases hnone
  · intro j w2 hw2 c hc
    rcases hpt j with ⟨u, u2, hu, hu2, hp, hd, hch⟩ | ⟨_, hnone⟩
    · rw [hw2] at hu2
      have : u2 = w2 := Option.some.inj hu2.symm
      subst this
      rw [hch] at hc
      rcases hwf.2.2 j u hu c hc with ⟨hjc, cw, hcw, hcwp, hcwd⟩
      rcases hpt c with ⟨x, x2, hx, hx2, hxp, hxd, _⟩ | ⟨hxnone, _⟩
      · rw [hcw] at hx
        have : x = cw := Option.some.inj hx.symm
        subst this
        exact ⟨hjc, x2, hx2, by rw [hxp]; exact hcwp, by rw [hxd, hd]; exact hcwd⟩
      · rw [hcw] at hxnone
        cases hxnone
    · rw [hw2] at hnone
      cases hnone

/-- The planner invariant survives any pointwise rewrite that keeps the
structural fields and the untried actions and never lowers a visit count. -/
theorem inv_of_pointwise {ns ns2 : Arena} (hinv : invArena ns)
    (hpt : ∀ j, (∃ u u2, ns.get? j = some u ∧ ns2.get? j = some u2 ∧
        u2.parent = u.parent ∧ u2.depth = u.depth ∧ u2.children = u.children ∧
        u2.expendable_actions = u.expendable_actions ∧
        u.number_of_visits ≤ u2.number_of_visits)
      ∨ (ns.get? j = none ∧ ns2.get? j = none)) :
    invArena ns2 := by
  obtain ⟨hwf, hlen, hcnt⟩ := hinv
  refine ⟨wf_of_pointwise hwf ?_, ?_, ?_⟩
  · intro j
    rcases hpt j with ⟨u, u2, hu, hu2, h1, h2, h3, _, _⟩ | hn
    · exact Or.inl ⟨u, u2, hu, hu2, h1, h2, h3⟩
    · exact Or.inr hn
  · rcases Nat.exists_eq_add_of_lt hlen with ⟨k, hk⟩
    cases hzero : ns.get? 0 with
    | none =>
      rw [List.get?_eq_none] at hzero
      omega
    | some u =>
      rcases hpt 0 with ⟨x, x2, hx, hx2, _⟩ | ⟨hxnone, _⟩
      · have := get?_lt_length hx2
        omega
      · rw [hzero] at hxnone
        cases hxnone
  · intro j w2 hw2
    rcases hpt j with ⟨u, u2, hu, hu2, _, _, hch, hea, hvis⟩ | ⟨_, hnone⟩
    · rw [hw2] at hu2
      have : u2 = w2 := Option.some.inj hu2.symm
      subst this
      rcases hcnt j u hu with ⟨hsum, hv1⟩
      exact ⟨by rw [hch, hea]; exact hsum, le_trans hv1 hvis⟩
    · rw [hw2] at hnone
      cases hnone

theorem wf_set_updVisit {ns : Arena} {p : ℕ} {w : NodeRec} (df r : ℚ)
    (hwf : wfArena ns) (hp : ns.get? p = some w) :
    wfArena (ns.set p (updVisit df r w)) := by
  apply wf_of_pointwise hwf
  intro j
  by_cases hj : j = p
  · subst hj
    exact Or.inl ⟨w, updVisit df r w, hp,
      List.get?_set_eq_of_lt _ (get?_lt_length hp), rfl, rfl, rfl⟩
  · cases hx : ns.get? j with
    | none =>
      refine Or.inr ⟨rfl, ?_⟩
      rw [List.get?_set_ne _ _ (fun h => hj h.symm)]
      exact hx
    | some u =>
      refine Or.inl ⟨u, u, rfl, ?_, rfl, rfl, rfl⟩
      rw [List.get?_set_ne _ _ (fun h => hj h.symm)]
      exact hx

/-- The recursive backup walk characterised: starting at a node of depth
`dep` (with enough fuel), it updates exactly the nodes of a duplicate-free
chain of `dep + 1` arena indices leading from the start node down to the
root (index 0), adding one visit and `df ^ depth * r` to each, and leaves
every node off the chain untouched. -/
theorem backupF_spec (df r : ℚ) :
    ∀ (dep fuel : ℕ) (ns : Arena) (p : ℕ) (w : NodeRec),
      wfArena ns → ns.get? p = some w → w.depth = dep → dep < fuel →
      ∃ chain : List ℕ,
        chain.length = dep + 1 ∧ chain.Nodup ∧ chain.head? = some p ∧ 0 ∈ chain ∧
        (∀ j, j ∈ chain → j ≤ p) ∧
        (∀ j, j ∈ chain → ∃ u, ns.get? j = some u ∧
          (backupF df r fuel ns p).get? j = some (updVisit df r u)) ∧
        (∀ j, j ∉ chain → (backupF df r fuel ns p).get? j = ns.get? j) := by
  intro dep
  induction dep with
  | zero =>
    intro fuel ns p w hwf hp hd hfuel
    rcases Nat.exists_eq_add_of_lt hfuel with ⟨k, hk⟩
    subst hk
    have hp0 : p = 0 := depth_zero_index_zero hwf p w hp hd
    refine ⟨[p], by simp, by simp, rfl, by rw [hp0]; exact List.mem_singleton_self 0, ?_, ?_, ?_⟩
    · intro j hj
      rw [List.mem_singleton.mp hj]
    · intro j hj
      rw [List.mem_singleton.mp hj]
      refine ⟨w, hp, ?_⟩
      rw [backupF, hp]
      simp only [hd, if_pos rfl]
      exact List.get?_set_eq_of_lt _ (get?_lt_length hp)
    · intro j hj
      have hjp : j ≠ p := fun h => hj (h ▸ List.mem_singleton_self p)
      rw [backupF, hp]
      simp only [hd, if_pos rfl, if_true]
      rw [List.get?_set_ne _ _ (fun h => hjp h.symm)]
  | succ dep ih =>
    intro fuel ns p w hwf hp hd hfuel
    rcases Nat.exists_eq_add_of_lt hfuel with ⟨k, hk⟩
    subst hk
    have hppos : 0 < p := by
      rcases Nat.eq_zero_or_pos p with h0 | h1
      · subst h0
        have := (hwf.1 w hp).2
        omega
      · exact h1
    rcases hwf.2.1 p w hp hppos with ⟨q, u, hpar, hq, hqp, hqd⟩
    have hud : u.depth = dep := by omega
    have hns2wf : wfArena (ns.set p (updVisit df r w)) := wf_set_updVisit df r hwf hp
    have hq2 : (ns.set p (updVisit df r w)).get? q = some u := by
      rw [List.get?_set_ne _ _ (by omega)]
      exact hq
    have hdepfuel : dep < dep + 1 + k := by omega
    rcases ih (dep + 1 + k) (ns.set p (updVisit df r w)) q u hns2wf hq2 hud hdepfuel with
      ⟨chain, hclen, hcnodup, hchead, hc0, hcle, hcupd, hcoff⟩
    have hrw : backupF df r (dep + 1 + k + 1) ns p
        = backupF df r (dep + 1 + k) (ns.set p (updVisit df r w)) q := by
      rw [backupF, hp]
      have h2 : w.depth ≠ 0 := by omega
      simp only [if_neg h2, hpar]
    have hpnotin : p ∉ chain := by
      intro hmem
      have := hcle p hmem
      omega
    refine ⟨p :: chain, by simp [hclen], ?_, rfl, List.mem_cons_of_mem p hc0, ?_, ?_, ?_⟩
    · exact List.nodup_cons.mpr ⟨hpnotin, hcnodup⟩
    · intro j hj
      rcases List.mem_cons.mp hj with h1 | h2
      · omega
      · have := hcle j h2
        omega
    · intro j hj
      rcases List.mem_cons.mp hj with h1 | h2
      · subst h1
        refine ⟨w, hp, ?_⟩
        rw [hrw, hcoff j hpnotin, List.get?_set_eq_of_lt _ (get?_lt_length hp)]
      · rcases hcupd j h2 with ⟨u2, hu2, hu2f⟩
        have hjp : j ≠ p := by
          have := hcle j h2
          omega
        refine ⟨u2, ?_, by rw [hrw]; exact hu2f⟩
        rw [← hu2, List.get?_set_ne _ _ (fun h => hjp h.symm)]
    · intro j hj
      have hjp : j ≠ p := fun h => hj (h ▸ List.mem_cons_self p chain)
      have hjchain : j ∉ chain := fun h => hj (List.mem_cons_of_mem p h)
      rw [hrw, hcoff j hjchain, List.get?_set_ne _ _ (fun h => hjp h.symm)]

/-- The `backup` call of one simulation, characterised on the real arena:
called on a copy of a depth-0 frontier (the root) it touches nothing; on a
copy of a deeper frontier it updates exactly a duplicate-free chain of
`depth` indices — the proper ancestors of the frontier, root included — and
leaves everything else, the frontier node itself included, unchanged. -/
theorem backup_outer_spec (df r : ℚ) {ns : Arena} {fi : ℕ} {v : NodeRec}
    (hwf : wfArena ns) (hv : ns.get? fi = some v) :
    (v.depth = 0 → backup_outer df r ns v = ns) ∧
    (0 < v.depth → ∃ chain : List ℕ,
      chain.length = v.depth ∧ chain.Nodup ∧ 0 ∈ chain ∧
      (∀ j, j ∈ chain → j < fi) ∧
      (∀ j, j ∈ chain → ∃ u, ns.get? j = some u ∧
        (backup_outer df r ns v).get? j = some (updVisit df r u)) ∧
      (∀ j, j ∉ chain → (backup_outer df r ns v).get? j = ns.get? j)) := by
  constructor
  · intro hd
    rw [backup_outer, if_pos hd]
  · intro hdpos
    have hfi : 0 < fi := by
      rcases Nat.eq_zero_or_pos fi with h0 | h1
      · subst h0
        have := (hwf.1 v hv).2
        omega
      · exact h1
    rcases hwf.2.1 fi v hv hfi with ⟨q, u, hpar, hq, hqfi, hqd⟩
    have hrw : backup_outer df r ns v = backupF df r (ns.length + 1) ns q := by
      rw [backup_outer, if_neg (by omega), hpar]
    have hdlt : u.depth < ns.length + 1 := by
      have h1 := depth_le_of_wf hwf q u hq
      have h2 := get?_lt_length hq
      omega
    rcases backupF_spec df r u.depth (ns.length + 1) ns q u hwf hq rfl hdlt with
      ⟨chain, hclen, hnodup, hchead, h0c, hcle, hcupd, hcoff⟩
    refine ⟨chain, by omega, hnodup, h0c, ?_, ?_, ?_⟩
    · intro j hj
      have := hcle j hj
      omega
    · intro j hj
      rw [hrw]
      exact hcupd j hj
    · intro j hj
      rw [hrw]
      exact hcoff j hj

theorem backup_outer_inv (df r : ℚ) {ns : Arena} {fi : ℕ} {v : NodeRec}
    (hinv : invArena ns) (hv : ns.get? fi = some v) :
    invArena (backup_outer df r ns v) := by
  rcases backup_outer_spec df r hinv.1 hv with ⟨hzero, hpos⟩
  rcases Nat.eq_zero_or_pos v.depth with hd | hd
  · rw [hzero hd]
    exact hinv
  · rcases hpos hd with ⟨chain, _, _, _, _, hupd, hoff⟩
    apply inv_of_pointwise hinv
    intro j
    by_cases hj : j ∈ chain
    · rcases hupd j hj with ⟨u, hu, huf⟩
      exact Or.inl ⟨u, updVisit df r u, hu, huf, rfl, rfl, rfl, rfl, Nat.le_succ _⟩
    · rw [hoff j hj]
      cases hx : ns.get? j with
      | none => exact Or.inr ⟨rfl, rfl⟩
      | some u => exact Or.inl ⟨u, u, rfl, rfl, rfl, rfl, rfl, rfl, le_refl _⟩

/-! ### One whole simulation -/

/-- With a terminal root the tree policy immediately returns the root, the
frontier copy has depth 0, and backup touches no real node: the arena of a
simulation from a terminal root is unchanged. -/
theorem simulate_terminal_root {FZ : Type} (pl : b03_uct_pilot FZ) (ns : Arena)
    (rng : List ℕ) (r0 : ℚ) {rv : NodeRec} (hwf : wfArena ns)
    (h0 : ns.get? 0 = some rv) (hterm : is_terminal rv.s = true) :
    (simulate pl ns rng r0).2.1 = ns := by
  have hd0 : rv.depth = 0 := (hwf.1 rv h0).2
  simp only [simulate, tree_policy, tree_policyF, h0, hterm, if_true]
  rw [backup_outer]
  simp only [Option.getD_some]
  rw [if_pos hd0]

/-- With a non-terminal root, one simulation preserves the planner
invariant and increments the visit count of the root by exactly one,
keeping its state, depth and parent. -/
theorem simulate_bump_root {FZ : Type} (pl : b03_uct_pilot FZ) (ns : Arena)
    (rng : List ℕ) (r0 : ℚ) {rv : NodeRec} (hinv : invArena ns)
    (h0 : ns.get? 0 = some rv) (hterm : is_terminal rv.s = false) :
    invArena (simulate pl ns rng r0).2.1 ∧
    ∃ rv2, (simulate pl ns rng r0).2.1.get? 0 = some rv2 ∧
      rv2.s = rv.s ∧ rv2.depth = rv.depth ∧
      rv2.number_of_visits = rv.number_of_visits + 1 := by
  obtain ⟨hinv1, fv, hfv, hle, hstrict⟩ :=
    tree_policyF_spec (ns.length + 1) pl ns 0 rng rv hinv h0
  have hd0 : rv.depth = 0 := (hinv.1.1 rv h0).2
  have hfvpos : 0 < fv.depth := by
    have := hstrict (Nat.succ_ne_zero _) hterm
    omega
  obtain ⟨rw2, hrw2, hs2, har2, hnv2, hdp2, hpar2, _⟩ :=
    tree_policyF_frame (ns.length + 1) pl ns 0 rng 0 rv h0
  simp only [simulate, tree_policy]
  rw [hfv]
  simp only [Option.getD_some]
  rcases backup_outer_spec ((default_policy (tree_policyF (ns.length + 1) pl ns 0 rng).1 fv.s r0
        (tree_policyF (ns.length + 1) pl ns 0 rng).2.2.2).2.1.df)
      ((default_policy (tree_policyF (ns.length + 1) pl ns 0 rng).1 fv.s r0
        (tree_policyF (ns.length + 1) pl ns 0 rng).2.2.2).1) hinv1.1 hfv with ⟨_, hpos⟩
  rcases hpos hfvpos with ⟨chain, hclen, hnodup, h0c, hltfi, hupd, hoff⟩
  constructor
  · exact backup_outer_inv _ _ hinv1 hfv
  · rcases hupd 0 h0c with ⟨u, hu, huf⟩
    rw [hrw2] at hu
    have huw : rw2 = u := Option.some.inj hu
    subst huw
    refine ⟨_, huf, ?_, ?_, ?_⟩
    · rw [updVisit] at *
      simpa using hs2
    · simpa [updVisit] using hdp2
    · simp [updVisit, hnv2]

/-- Effect of the whole budgeted loop on the root: the arena stays
invariant-preserving, the root keeps its state and depth, and its visit
count grows by one per simulation when the root state is non-terminal and
not at all when it is terminal. -/
theorem run_sims_root {FZ : Type} (uninit : ℕ → ℚ) :
    ∀ (b i0 : ℕ) (pl : b03_uct_pilot FZ) (ns : Arena) (rng : List ℕ) (rv : NodeRec),
      invArena ns → ns.get? 0 = some rv →
      invArena (run_sims uninit i0 b (pl, ns, rng)).2.1 ∧
      ∃ rv2, (run_sims uninit i0 b (pl, ns, rng)).2.1.get? 0 = some rv2 ∧
        rv2.s = rv.s ∧ rv2.depth = rv.depth ∧
        rv2.number_of_visits
          = rv.number_of_visits + (if is_terminal rv.s = true then 0 else b) := by
  intro b
  induction b with
  | zero =>
    intro i0 pl ns rng rv hinv h0
    exact ⟨hinv, rv, h0, rfl, rfl, by cases is_terminal rv.s <;> simp⟩
  | succ b ih =>
    intro i0 pl ns rng rv hinv h0
    show invArena (run_sims uninit (i0 + 1) b
        (simulate pl ns rng (uninit i0))).2.1 ∧ _
    cases hterm : is_terminal rv.s with
    | true =>
      have harena : (simulate pl ns rng (uninit i0)).2.1 = ns :=
        simulate_terminal_root pl ns rng (uninit i0) hinv.1 h0 hterm
      have hstep := ih (i0 + 1) (simulate pl ns rng (uninit i0)).1
        (simulate pl ns rng (uninit i0)).2.1
        (simulate pl ns rng (uninit i0)).2.2 rv (by rw [harena]; exact hinv)
        (by rw [harena]; exact h0)
      rcases hstep with ⟨hinv2, rv2, hrv2, hs2, hd2, hn2⟩
      refine ⟨hinv2, rv2, hrv2, hs2, hd2, ?_⟩
      rw [hn2, hterm]
      simp
    | false =>
      rcases simulate_bump_root pl ns rng (uninit i0) hinv h0 hterm with
        ⟨hinv1, rv1, hrv1, hs1, hd1, hn1⟩
      have hstep := ih (i0 + 1) (simulate pl ns rng (uninit i0)).1
        (simulate pl ns rng (uninit i0)).2.1
        (simulate pl ns rng (uninit i0)).2.2 rv1 hinv1 hrv1
      rcases hstep with ⟨hinv2, rv2, hrv2, hs2, hd2, hn2⟩
      refine ⟨hinv2, rv2, hrv2, by rw [hs2, hs1], by rw [hd2, hd1], ?_⟩
      have hterm1 : is_terminal rv1.s = false := by rw [hs1]; exact hterm
      rw [hn2, hn1, hterm1]
      simp only [hterm, Bool.false_eq_true, if_false]
      omega

theorem inv_mk_root {FZ : Type} (pl : b03_uct_pilot FZ) (s0 : State) :
    invArena [mk_root pl s0] := by
  have hget : ∀ i v, ([mk_root pl s0] : Arena).get? i = some v → i = 0 ∧ v = mk_root pl s0 := by
    intro i v h
    cases i with
    | zero => exact ⟨rfl, (Option.some.inj h).symm⟩
    | succ n => cases n <;> cases h
  refine ⟨⟨?_, ?_, ?_⟩, by simp, ?_⟩
  · intro v hv
    rw [(hget 0 v hv).2]
    exact ⟨rfl, rfl⟩
  · intro i v hv hi
    rcases hget i v hv with ⟨h0, _⟩
    omega
  · intro i v hv c hc
    rcases hget i v hv with ⟨_, hveq⟩
    subst hveq
    cases hc
  · intro i v hv
    rcases hget i v hv with ⟨_, hveq⟩
    subst hveq
    exact ⟨rfl, le_refl 1⟩

/-- With a terminal root the whole budgeted loop leaves the arena exactly
as built: no simulation changes any node. -/
theorem run_sims_terminal_arena {FZ : Type} (uninit : ℕ → ℚ) :
    ∀ (b i0 : ℕ) (pl : b03_uct_pilot FZ) (ns : Arena) (rng : List ℕ) (rv : NodeRec),
      wfArena ns → ns.get? 0 = some rv → is_terminal rv.s = true →
      (run_sims uninit i0 b (pl, ns, rng)).2.1 = ns := by
  intro b
  induction b with
  | zero => intro i0 pl ns rng rv _ _ _; rfl
  | succ b ih =>
    intro i0 pl ns rng rv hwf h0 hterm
    show (run_sims uninit (i0 + 1) b (simulate pl ns rng (uninit i0))).2.1 = ns
    have harena : (simulate pl ns rng (uninit i0)).2.1 = ns :=
      simulate_terminal_root pl ns rng (uninit i0) hwf h0 hterm
    have := ih (i0 + 1) (simulate pl ns rng (uninit i0)).1
      (simulate pl ns rng (uninit i0)).2.1 (simulate pl ns rng (uninit i0)).2.2 rv
      (by rw [harena]; exact hwf) (by rw [harena]; exact h0) hterm
    rw [this, harena]

theorem get_best_action_no_children {ns : Arena} {i : ℕ} {v : NodeRec} (rng : List ℕ)
    (h : ns.get? i = some v) (hch : v.children = []) :
    (get_best_action ns i rng).1 = none := by
  simp only [get_best_action, h, hch, List.map_nil, argmax_indices]

/-! ### Claim theorems -/

/-- C10: the reward model returns exactly
`s_t.zdot + s_t.V * s_t.Vdot / 9.81`, reading only the pre-transition
state: it is independent of the applied action and of the resulting
state. -/
theorem claim_C10 (s_t : State) (a_t : Command) (s_tp : State)
    (a2 : Command) (s2 : State) :
    get_reward_model s_t a_t s_tp = s_t.zdot + s_t.V * s_t.Vdot / (981 / 100) ∧
    get_reward_model s_t a_t s_tp = get_reward_model s_t a2 s2 :=
  ⟨rfl, rfl⟩

theorem default_policy_loop_offset {FZ : Type} (actions : List Command) :
    ∀ (rem t : ℕ) (pl : b03_uct_pilot FZ) (s : State) (r : ℚ) (rng : List ℕ),
      (default_policy_loop actions t rem pl s r rng).1
        = r + (default_policy_loop actions t rem pl s 0 rng).1 := by
  intro rem
  induction rem with
  | zero => intro t pl s r rng; simp [default_policy_loop]
  | succ rem ih =>
    intro t pl s r rng
    show (default_policy_loop actions t (rem + 1) pl s r rng).1 = _
    rw [default_policy_loop, default_policy_loop]
    by_cases hterm : is_terminal (get_transition_model pl s
        (actions.getD ((draw rng).1 % actions.length) {})).1
    · simp only [hterm, if_true]
      simp
    · simp only [hterm, if_false, Bool.false_eq_true]
      conv_lhs => rw [ih]
      conv_rhs => rw [ih]
      ring

/-- C7 (code bug): the rollout return produced by `default_policy` is the
initial content of the accumulator plus the discounted reward sum.
`operator()` passes the accumulator uninitialised (`double reward;`), so
the value backed up is an arbitrary offset `r0` plus the sum the spec
describes; only for `r0 = 0` does it equal the discounted sum itself. -/
theorem claim_C7_bug {FZ : Type} (pl : b03_uct_pilot FZ) (s : State) (r0 : ℚ)
    (rng : List ℕ) :
    (default_policy pl s r0 rng).1 = r0 + (default_policy pl s 0 rng).1 := by
  rw [default_policy, default_policy, default_policy_loop_offset]

/-- C5 (amended): after the budgeted loop with budget `b`, the root visit
count is `b + 1` for a non-terminal root (its constructor already counts
one visit, and each of the `b` backups adds one through the parent chain of
the frontier copy) and stays `1` for a terminal root (every backup then
touches only the discarded copy). -/
theorem claim_C5_amended {FZ : Type} (pl : b03_uct_pilot FZ) (s0 : State)
    (rng : List ℕ) (uninit : ℕ → ℚ) (b i0 : ℕ) :
    ∃ rv2, (run_sims uninit i0 b (pl, [mk_root pl s0], rng)).2.1.get? 0 = some rv2 ∧
      rv2.number_of_visits = (if is_terminal s0 = true then 1 else b + 1) := by
  rcases run_sims_root uninit b i0 pl [mk_root pl s0] rng (mk_root pl s0)
      (inv_mk_root pl s0) rfl with ⟨_, rv2, hrv2, _, _, hn⟩
  refine ⟨rv2, hrv2, ?_⟩
  rw [hn]
  show 1 + _ = _
  cases h : is_terminal s0 with
  | true => simp [mk_root, h]
  | false => simp [mk_root, h]; omega

/-- C6 (amended): `operator()` has no terminal-root fallback: with a
terminal root no simulation ever creates a child, so action extraction
finds no child and yields no action at all; the recovery action is not
produced by the planner (the surrounding stepper calls `out_of_range`
based on a distance-to-center test instead). -/
theorem claim_C6_amended {FZ : Type} (pl : b03_uct_pilot FZ) (s0 : State)
    (rng : List ℕ) (uninit : ℕ → ℚ) (hterm : is_terminal s0 = true) :
    (select_action pl s0 rng uninit).1 = none := by
  rw [select_action]
  have harena := run_sims_terminal_arena uninit pl.computational_budget 0 pl
    [mk_root pl s0] rng (mk_root pl s0) (inv_mk_root pl s0).1 rfl hterm
  apply get_best_action_no_children
  · rw [harena]; rfl
  · rfl

/-- C8 (amended): with budget `0` the loop never runs, the root keeps its
empty child list, and action extraction yields no action at all — the C++
code indexes an empty vector rather than returning a defined action. -/
theorem claim_C8_amended {FZ : Type} (pl : b03_uct_pilot FZ) (s0 : State)
    (rng : List ℕ) (uninit : ℕ → ℚ) (hb : pl.computational_budget = 0) :
    (select_action pl s0 rng uninit).1 = none := by
  rw [select_action, hb]
  apply get_best_action_no_children
  · rfl
  · rfl

/-- C9 (amended): the planner reads the seeding state once, stores it in
the root, and no simulation ever rewrites it: after any number of
simulations the root still holds exactly the entry state.  (The pilot
collaborator members `ac` and `fz`, by contrast, are mutable scratch for
the transition model — see the counterexample.) -/
theorem claim_C9_amended {FZ : Type} (pl : b03_uct_pilot FZ) (s0 : State)
    (rng : List ℕ) (uninit : ℕ → ℚ) (b i0 : ℕ) :
    ∃ rv2, (run_sims uninit i0 b (pl, [mk_root pl s0], rng)).2.1.get? 0 = some rv2 ∧
      rv2.s = s0 := by
  rcases run_sims_root uninit b i0 pl [mk_root pl s0] rng (mk_root pl s0)
      (inv_mk_root pl s0) rfl with ⟨_, rv2, hrv2, hs, _, _⟩
  exact ⟨rv2, hrv2, hs⟩

theorem default_policy_loop_step {FZ : Type} (actions : List Command) (t rem : ℕ)
    (pl : b03_uct_pilot FZ) (s : State) (r : ℚ) (k : ℕ) (ks : List ℕ) :
    default_policy_loop actions t (rem + 1) pl s r (k :: ks) =
      if is_terminal (get_transition_model pl s (actions.getD (k % actions.length) {})).1
      then (r, (get_transition_model pl s (actions.getD (k % actions.length) {})).2, ks)
      else default_policy_loop actions (t + 1) rem
        (get_transition_model pl s (actions.getD (k % actions.length) {})).2
        (get_transition_model pl s (actions.getD (k % actions.length) {})).1
        (r + pl.df ^ t * get_reward_model s (actions.getD (k % actions.length) {})
          (get_transition_model pl s (actions.getD (k % actions.length) {})).1) ks := rfl

/-- C4: the rollout stops early without adding the reward of the step whose
resulting state is terminal.  First conjunct: a horizon-3 rollout whose
step-0 transition is non-terminal and whose step-1 transition is terminal
contributes exactly one reward term, the step-0 one (on top of the
accumulator value `r0` it was handed).  Second conjunct, for every horizon:
a step whose transition lands in a terminal state adds nothing and ends the
loop. -/
theorem claim_C4 {FZ : Type} (pl : b03_uct_pilot FZ) (s : State) (r0 : ℚ)
    (k0 k1 : ℕ) (rest : List ℕ) (a0 a1 : Command) (s1 s2 : State)
    (pl1 : b03_uct_pilot FZ)
    (hh : pl.horizon = 3)
    (ha0 : a0 = (get_expendable_actions pl).getD (k0 % 3) {})
    (ht0s : (get_transition_model pl s a0).1 = s1)
    (ht0p : (get_transition_model pl s a0).2 = pl1)
    (hterm1 : is_terminal s1 = false)
    (ha1 : a1 = (get_expendable_actions pl1).getD (k1 % 3) {})
    (ht1s : (get_transition_model pl1 s1 a1).1 = s2)
    (hterm2 : is_terminal s2 = true) :
    (default_policy pl s r0 (k0 :: k1 :: rest)).1 = r0 + get_reward_model s a0 s1 ∧
    (∀ (actions : List Command) (t rem : ℕ) (q : b03_uct_pilot FZ) (sx : State)
      (racc : ℚ) (k : ℕ) (ks : List ℕ),
      is_terminal (get_transition_model q sx (actions.getD (k % actions.length) {})).1 = true →
      (default_policy_loop actions t (rem + 1) q sx racc (k :: ks)).1 = racc) := by
  constructor
  · have hact : get_expendable_actions pl1 = get_expendable_actions pl := by
      rw [← ht0p]
      rfl
    rw [hact] at ha1
    rw [default_policy, hh]
    rw [show (3 : ℕ) = 2 + 1 from rfl, default_policy_loop_step,
      get_expendable_actions_length pl, ← ha0, ht0s, ht0p, hterm1]
    simp only [Bool.false_eq_true, if_false]
    rw [show (2 : ℕ) = 1 + 1 from rfl, default_policy_loop_step,
      get_expendable_actions_length pl, ← ha1, ht1s, hterm2]
    simp only [if_true]
    rw [pow_zero, one_mul]
  · intro actions t rem q sx racc k ks hstop
    rw [default_policy_loop_step, hstop]
    simp

/-- C3: the UCT scorer returns exactly
`average_reward + 2 * C * sqrt(2 * log(parentVisits) / childVisits)` (with
the math-library `sqrt` and `log` injected as `sqrtFn`, `logFn`), reading
the parent visit count through the child back-reference, and its
`visitCount > 0` precondition is never violated by the control flow: every
node of every arena the budgeted loop produces carries at least one visit,
so every child scored by `get_best_uct_child` has a positive count. -/
theorem claim_C3 :
    (∀ (FZ : Type) (pl : b03_uct_pilot FZ) (ns : Arena) (v pv : NodeRec) (pi : ℕ),
      v.parent = some pi → ns.get? pi = some pv → 0 < v.number_of_visits →
      get_uct_score pl ns v = v.average_reward +
        2 * pl.uct_parameter * pl.sqrtFn (2 * pl.logFn (pv.number_of_visits : ℚ)
          / (v.number_of_visits : ℚ))) ∧
    (∀ (FZ : Type) (pl : b03_uct_pilot FZ) (s0 : State) (rng : List ℕ)
      (uninit : ℕ → ℚ) (b i0 j : ℕ) (w : NodeRec),
      (run_sims uninit i0 b (pl, [mk_root pl s0], rng)).2.1.get? j = some w →
      1 ≤ w.number_of_visits) := by
  constructor
  · intro FZ pl ns v pv pi hpar hpv _
    rw [get_uct_score, hpar]
    have hb : ((some pi).bind (fun p => ns.get? p)) = some pv := hpv
    rw [hb]
    rfl
  · intro FZ pl s0 rng uninit b i0 j w hw
    rcases run_sims_root uninit b i0 pl [mk_root pl s0] rng (mk_root pl s0)
        (inv_mk_root pl s0) rfl with ⟨hinv2, _⟩
    exact (hinv2.2.2 j w hw).2

/-- C2 (amended): `backup` is called on a COPY of the frontier node, so the
frontier increment lands on a discarded temporary: on the real tree, a
backup from a frontier copy of depth `d > 0` updates exactly the `d` proper
ancestors of the frontier (a duplicate-free chain through the parent
back-references ending at the root, index 0), adding one visit and
`df ^ depth * reward` to each, and leaves every other node — the frontier
node itself included — unchanged; from a depth-0 frontier (the root) it
updates no real node at all. -/
theorem claim_C2_amended (df r : ℚ) {ns : Arena} {fi : ℕ} {v : NodeRec}
    (hwf : wfArena ns) (hv : ns.get? fi = some v) :
    (v.depth = 0 → backup_outer df r ns v = ns) ∧
    (0 < v.depth → (backup_outer df r ns v).get? fi = ns.get? fi ∧
      ∃ chain : List ℕ, chain.length = v.depth ∧ chain.Nodup ∧ 0 ∈ chain ∧
        (∀ j, j ∈ chain → j < fi) ∧
        (∀ j, j ∈ chain → ∃ u, ns.get? j = some u ∧
          (backup_outer df r ns v).get? j = some (updVisit df r u)) ∧
        (∀ j, j ∉ chain → (backup_outer df r ns v).get? j = ns.get? j)) := by
  rcases backup_outer_spec df r hwf hv with ⟨hzero, hpos⟩
  refine ⟨hzero, fun hd => ?_⟩
  rcases hpos hd with ⟨chain, hclen, hnodup, h0c, hlt, hupd, hoff⟩
  have hfi : fi ∉ chain := by
    intro hmem
    have := hlt fi hmem
    omega
  exact ⟨hoff fi hfi, chain, hclen, hnodup, h0c, hlt, hupd, hoff⟩

/-- C1: one tree-policy step from a node `v` at arena index `i`.
A terminal node is returned unchanged (no node created, arena untouched);
a non-terminal, fully expanded node with children delegates to
`tree_policyF` on the child whose index is drawn from the subset of indices
attaining the maximal UCT score; a non-terminal, not fully expanded node
has one untried action removed (drawn uniformly), the transition applied
to its state, and exactly one new child appended (depth `parent + 1`, a
full fresh action set, zero return, one initial visit, the drawn incoming
action, a back-reference to `i`) which is returned as the frontier.  The
final conjunct: any descent grows the arena by at most one node, so each
simulation creates at most one new node. -/
theorem claim_C1 :
    (∀ (FZ : Type) (fuel : ℕ) (pl : b03_uct_pilot FZ) (ns : Arena) (i : ℕ)
        (rng : List ℕ) (v : NodeRec), ns.get? i = some v →
      (is_terminal v.s = true →
        tree_policyF (fuel + 1) pl ns i rng = (pl, ns, i, rng)) ∧
      (is_terminal v.s = false → is_fully_expanded v = true → v.children ≠ [] →
        ∃ j, j ∈ argmax_indices (child_scores pl ns v) ∧
          (∀ j2, j2 < (child_scores pl ns v).length →
            (child_scores pl ns v).getD j2 0 ≤ (child_scores pl ns v).getD j 0) ∧
          tree_policyF (fuel + 1) pl ns i rng
            = tree_policyF fuel pl ns (v.children.getD j 0) (draw rng).2) ∧
      (is_terminal v.s = false → is_fully_expanded v = false →
        ∃ (a : Command) (idx : ℕ), idx = (draw rng).1 % v.expendable_actions.length ∧
          a = v.expendable_actions.getD idx {} ∧ a ∈ v.expendable_actions ∧
          tree_policyF (fuel + 1) pl ns i rng
            = ((get_transition_model pl v.s a).2,
               ns.set i { v with
                 expendable_actions := v.expendable_actions.eraseIdx idx,
                 children := v.children ++ [ns.length] }
                 ++ [{ s := (get_transition_model pl v.s a).1,
                       expendable_actions :=
                         get_expendable_actions (get_transition_model pl v.s a).2,
                       average_reward := 0, number_of_visits := 1,
                       depth := v.depth + 1, incoming_action := a,
                       parent := some i, children := [] }],
               ns.length, (draw rng).2))) ∧
    (∀ (FZ : Type) (fuel : ℕ) (pl : b03_uct_pilot FZ) (ns : Arena) (i : ℕ)
      (rng : List ℕ),
      (tree_policyF fuel pl ns i rng).2.1.length ≤ ns.length + 1) := by
  constructor
  · intro FZ fuel pl ns i rng v hvi
    refine ⟨?_, ?_, ?_⟩
    · intro hterm
      simp only [tree_policyF, hvi, hterm, if_true]
    · intro hterm hfull hch
      simp only [tree_policyF, hvi, hterm, Bool.false_eq_true, if_false, hfull, if_true]
      have hcsne : child_scores pl ns v ≠ [] := by
        intro hnil
        have := child_scores_length pl ns v
        rw [hnil] at this
        exact hch (List.length_eq_zero.mp this.symm)
      cases hmi : argmax_indices (child_scores pl ns v) with
      | nil => exact absurd hmi (argmax_indices_ne_nil hcsne)
      | cons m ms =>
        refine ⟨(m :: ms).getD ((draw rng).1 % (m :: ms).length) 0, ?_, ?_, rfl⟩
        · exact mem_of_getD_sel (List.cons_ne_nil m ms)
        · intro j2 hj2
          apply argmax_indices_attains
          rw [hmi]
          exact mem_of_getD_sel (List.cons_ne_nil m ms)
          exact hj2
    · intro hterm hfull
      simp only [tree_policyF, hvi, hterm, Bool.false_eq_true, if_false, hfull,
        create_new_child]
      exact ⟨v.expendable_actions.getD ((draw rng).1 % v.expendable_actions.length) {},
        (draw rng).1 % v.expendable_actions.length, rfl, rfl,
        getD_mem_of_lt _ _ _ (Nat.mod_lt _ (List.length_pos.mpr (by
          intro hnil
          rw [is_fully_expanded, hnil] at hfull
          cases hfull))), rfl⟩
  · intro FZ fuel pl ns i rng
    exact (tree_policyF_length fuel pl ns i rng).2

/-! ### Concrete configurations for counterexamples and witnesses -/

/-- Identity transition collaborator: returns the queried aircraft, zone
and time unchanged (the aircraft already holds the queried state and
command). -/
def tf_id : Aircraft → Unit → ℚ → ℚ → ℚ → Aircraft × Unit × ℚ :=
  fun ac fz t _ _ => (ac, fz, t)

/-- A small concrete pilot: identity transitions, horizon 1, budget 2.  Its
aircraft enters with the distinctive command `dsigma = 5`. -/
def demo_pilot : b03_uct_pilot Unit :=
  { ac := { s := {}, u := { dalpha := 0, dbeta := 0, dsigma := 5 } }, fz := (),
    transition_function := tf_id, angle_rate_magnitude := 1 / 100,
    uct_parameter := 1, time_step_width := 1 / 10, sub_time_step_width := 1 / 10,
    df := 9 / 10, horizon := 1, computational_budget := 2,
    sqrtFn := fun q => q, logFn := fun q => q }

/-- The concrete pilot with budget `0`. -/
def demo_pilot0 : b03_uct_pilot Unit :=
  { demo_pilot with computational_budget := 0 }

/-- Shifting transition collaborator: the next altitude is read from the
`gamma` field and the next `gamma` from `khi`, giving an arithmetic-free
two-step countdown to a terminal state. -/
def tf_shift : Aircraft → Unit → ℚ → ℚ → ℚ → Aircraft × Unit × ℚ :=
  fun ac fz t _ _ =>
    ({ ac with s := { ac.s with z := ac.s.gamma, gamma := ac.s.khi } }, fz, t)

/-- The concrete pilot with the shifting transition model and horizon 3. -/
def demo_pilot_shift : b03_uct_pilot Unit :=
  { demo_pilot with transition_function := tf_shift, horizon := 3 }

/-- A concrete visited child whose back-reference points at the root. -/
def demo_child : NodeRec :=
  { s := {}, expendable_actions := [], average_reward := 7,
    number_of_visits := 2, depth := 1, incoming_action := {},
    parent := some 0, children := [] }

/-- C2 (counterexample): in a concrete simulation from a fresh root, the
tree policy creates the frontier at index 1 with one (constructor) visit,
and after the backup of that very simulation the frontier node still holds
one visit and zero return — backup did not increment the frontier (its
update hit the discarded copy); only the root moved, from 1 to 2 visits.
The claim, which says the frontier node is incremented by exactly 1 and
that `depth + 1 = 2` nodes are touched, is false here: one node changed. -/
theorem claim_C2_counterexample :
    (tree_policy demo_pilot [mk_root demo_pilot { z := 1 }] [0, 0, 0]).2.2.1 = 1 ∧
    ((tree_policy demo_pilot [mk_root demo_pilot { z := 1 }] [0, 0, 0]).2.1.get? 1).map
      (fun w => w.number_of_visits) = some 1 ∧
    ((simulate demo_pilot [mk_root demo_pilot { z := 1 }] [0, 0, 0] 0).2.1.get? 1).map
      (fun w => w.number_of_visits) = some 1 ∧
    ((simulate demo_pilot [mk_root demo_pilot { z := 1 }] [0, 0, 0] 0).2.1.get? 0).map
      (fun w => w.number_of_visits) = some 2 := by
  decide

theorem claim_C2_witness :
    backup_outer (9 / 10) 5 [mk_root demo_pilot { z := 1 }] (mk_root demo_pilot { z := 1 })
      = [mk_root demo_pilot { z := 1 }] :=
  (@claim_C2_amended (9 / 10) 5 [mk_root demo_pilot { z := 1 }] 0
    (mk_root demo_pilot { z := 1 }) (inv_mk_root demo_pilot { z := 1 }).1 rfl).1 rfl

/-- C5 (counterexample): with budget 2 and a non-terminal root, the root
ends with 3 visits, not 2: the constructor already counts one visit. -/
theorem claim_C5_counterexample :
    ((run_sims (fun _ => 0) 0 2 (demo_pilot, [mk_root demo_pilot { z := 1 }],
        [0, 0, 0, 0, 0, 0])).2.1.get? 0).map (fun w => w.number_of_visits) = some 3 ∧
    ¬ ((run_sims (fun _ => 0) 0 2 (demo_pilot, [mk_root demo_pilot { z := 1 }],
        [0, 0, 0, 0, 0, 0])).2.1.get? 0).map (fun w => w.number_of_visits) = some 2 := by
  decide

/-- C6 (counterexample): with a terminal root (`z = -1`), `operator()`
returns no action at all — in particular not the recovery action
`out_of_range` — for a positive budget. -/
theorem claim_C6_counterexample :
    (select_action demo_pilot { z := -1 } [0, 0, 0, 0, 0, 0] (fun _ => 0)).1 = none ∧
    ¬ (select_action demo_pilot { z := -1 } [0, 0, 0, 0, 0, 0] (fun _ => 0)).1
        = some (out_of_range demo_pilot { z := -1 }) := by
  decide

theorem claim_C6_witness :
    (select_action demo_pilot { z := -1 } [0] (fun _ => 0)).1 = none :=
  claim_C6_amended demo_pilot { z := -1 } [0] (fun _ => 0) (by decide)

/-- C8 (counterexample): with budget 0 the planner produces no action. -/
theorem claim_C8_counterexample :
    (select_action demo_pilot0 { z := 1 } [0, 0, 0] (fun _ => 0)).1 = none ∧
    ((select_action demo_pilot0 { z := 1 } [0, 0, 0] (fun _ => 0)).1).isSome = false := by
  decide

theorem claim_C8_witness :
    (select_action demo_pilot0 { z := 1 } [0] (fun _ => 0)).1 = none :=
  claim_C8_amended demo_pilot0 { z := 1 } [0] (fun _ => 0) rfl

/-- C9 (counterexample): the pilot aircraft member does not hold its entry
state after `operator()`: one budgeted call from a non-terminal root
overwrites the aircraft state and command with the last transition query
(entry command `dsigma = 5` is lost). -/
theorem claim_C9_counterexample :
    ¬ (select_action demo_pilot { z := 1 } [0, 0, 0, 0, 0, 0] (fun _ => 0)).2.ac
        = demo_pilot.ac := by
  decide

theorem claim_C1_witness :
    tree_policyF 1 demo_pilot [mk_root demo_pilot { z := -1 }] 0 [0]
      = (demo_pilot, [mk_root demo_pilot { z := -1 }], 0, [0]) :=
  ((claim_C1.1 Unit 0 demo_pilot [mk_root demo_pilot { z := -1 }] 0 [0]
    (mk_root demo_pilot { z := -1 }) rfl).1) (by decide)

theorem claim_C3_witness :
    get_uct_score demo_pilot [mk_root demo_pilot { z := 1 }] demo_child
      = demo_child.average_reward + 2 * demo_pilot.uct_parameter *
        demo_pilot.sqrtFn (2 * demo_pilot.logFn
          (((mk_root demo_pilot { z := 1 }).number_of_visits : ℚ))
          / ((demo_child.number_of_visits : ℚ))) :=
  claim_C3.1 Unit demo_pilot [mk_root demo_pilot { z := 1 }] demo_child
    (mk_root demo_pilot { z := 1 }) 0 rfl rfl (by decide)

theorem claim_C4_witness :
    (default_policy demo_pilot_shift { z := 1, gamma := 1, khi := -1 } 0 [0, 0]).1
      = 0 + get_reward_model { z := 1, gamma := 1, khi := -1 }
          ((get_expendable_actions demo_pilot_shift).getD (0 % 3) {})
          (get_transition_model demo_pilot_shift { z := 1, gamma := 1, khi := -1 }
            ((get_expendable_actions demo_pilot_shift).getD (0 % 3) {})).1 :=
  (claim_C4 demo_pilot_shift { z := 1, gamma := 1, khi := -1 } 0 0 0 [] _ _ _ _ _
    rfl rfl rfl rfl (by decide) rfl rfl (by decide)).1
